import Mathlib

set_option maxHeartbeats 1000000

/-!
Verification development for the llm-playground RAG core
(src/rag/src/chroma.py and src/rag/src/app.py).

Documents and chunks carry a metadata dictionary; the store is the
persistent vector index keyed by explicit string identifiers.  Every
definition below is a shallow embedding of the corresponding Python
function, preserving its name where Lean allows it.
-/

namespace LlmPlayground

/-- Metadata values as they occur in the repository: strings (source paths,
ids), integers (page numbers) and booleans (permission flags). -/
inductive Val where
  | vStr (s : String)
  | vInt (n : Int)
  | vBool (b : Bool)
deriving DecidableEq

/-- Python string formatting of an optional metadata value, as an f-string
does it: a missing value (dict.get returning None) prints as "None",
booleans print capitalised. -/
def pyFormat : Option Val → String
  | none => "None"
  | some (Val.vStr s) => s
  | some (Val.vInt n) => toString n
  | some (Val.vBool b) => if b then "True" else "False"

/-- Dictionary lookup, first matching key (keys are unique in every
dictionary the program builds). -/
def metaGet : List (String × Val) → String → Option Val
  | [], _ => none
  | p :: rest, k => if p.1 = k then some p.2 else metaGet rest k

/-- Dictionary update: replace the first binding of the key, or append a
new binding (Python dict assignment, insertion order preserved). -/
def metaSet : List (String × Val) → String → Val → List (String × Val)
  | [], k, v => [(k, v)]
  | p :: rest, k, v => if p.1 = k then (k, v) :: rest else p :: metaSet rest k v

/-- A langchain Document: page content plus a metadata dictionary. -/
structure Document where
  pageContent : String
  metadata : List (String × Val)
deriving DecidableEq

/-- The page identifier f-string of chroma.py line 63:
current_page_id = source formatted next to page, colon separated. -/
def pageId (chunk : Document) : String :=
  pyFormat (metaGet chunk.metadata "source") ++ ":" ++ pyFormat (metaGet chunk.metadata "page")

/-- The nested loop of chroma.py lines 79-82: each item dictionary of the
metadata argument is written key by key into the chunk metadata. -/
def applyItems (m : List (String × Val)) (items : List (List (String × Val))) :
    List (String × Val) :=
  items.foldl (fun acc item => item.foldl (fun a kv => metaSet a kv.1 kv.2) acc) m

/-- The loop body of ChromaVectorDB.calculate_chunk_ids (chroma.py lines
57-83), carrying last_page_id and current_chunk_index through the
traversal.  Each chunk gets metadata id = current_page_id : index, and then
the metadata overlay items when the overlay list is nonempty. -/
def calcIdsAux (overlay : List (List (String × Val))) (last : Option String) (idx : Nat) :
    List Document → List Document
  | [] => []
  | chunk :: rest =>
    let current_page_id := pageId chunk
    let current_chunk_index := if some current_page_id = last then idx + 1 else 0
    let chunk_id := current_page_id ++ ":" ++ toString current_chunk_index
    let m1 := metaSet chunk.metadata "id" (Val.vStr chunk_id)
    let m2 := if overlay.isEmpty then m1 else applyItems m1 overlay
    ⟨chunk.pageContent, m2⟩ :: calcIdsAux overlay (some current_page_id) current_chunk_index rest

/-- ChromaVectorDB.calculate_chunk_ids (chroma.py lines 47-83): assign
source:page:index identifiers, resetting the index whenever the
source:page pair differs from the previous chunk, and apply the optional
metadata overlay to every chunk. -/
def calculate_chunk_ids (chunks : List Document) (metadata : List (List (String × Val))) :
    List Document :=
  calcIdsAux metadata none 0 chunks

/-- Reading chunk.metadata of key id after calculate_chunk_ids has set it
(chroma.py line 110 reads metadata of key id of every batched chunk). -/
def idOf (chunk : Document) : String :=
  pyFormat (metaGet chunk.metadata "id")

/-- The persistent store of one collection: entries keyed by explicit
string identifier, in insertion order. -/
structure Store where
  entries : List (String × Document)
deriving DecidableEq

/-- The identifier set the store reports; chroma.py line 95-98 fetches it
with vector_store.get. -/
def storedIds (s : Store) : List String :=
  s.entries.map Prod.fst

/-- Lookup in an entry list, first matching identifier. -/
def lookupEntries : List (String × Document) → String → Option Document
  | [], _ => none
  | p :: rest, k => if p.1 = k then some p.2 else lookupEntries rest k

/-- Lookup of one stored entry by identifier. -/
def storeGet (s : Store) (id : String) : Option Document :=
  lookupEntries s.entries id

/-- Upsert into an entry list: replace the entry stored under the
identifier, or append a new entry. -/
def upsertEntries : List (String × Document) → String → Document → List (String × Document)
  | [], id, d => [(id, d)]
  | p :: rest, id, d => if p.1 = id then (id, d) :: rest else p :: upsertEntries rest id d

/-- Modelled from the spec: the persistent store supports
add-with-explicit-id with upsert semantics (spec section 6), so one write
replaces the entry already stored under the identifier or appends a new
entry. -/
def upsertOne (s : Store) (id : String) (d : Document) : Store :=
  ⟨upsertEntries s.entries id d⟩

/-- Modelled from the spec: vector_store.add_documents(batch, ids) writes
each chunk of the batch under its explicit identifier (chroma.py line
111 delegates to the external langchain Chroma client). -/
def vectorStoreAdd (s : Store) (docs : List Document) (ids : List String) : Store :=
  (ids.zip docs).foldl (fun st p => upsertOne st p.1 p.2) s

/-- Slicing loop of ChromaVectorDB.batch, with the remaining list length
as structural fuel so that the definition computes by reduction. -/
def batchAux : Nat → List α → Nat → List (List α)
  | 0, _, _ => []
  | fuel + 1, l, n =>
    if l.isEmpty ∨ n = 0 then []
    else l.take n :: batchAux fuel (l.drop n) n

/-- ChromaVectorDB.batch (chroma.py lines 125-129): slices of size n taken
left to right; the Python range step is only ever 100, a step of 0 would
raise in Python and yields the empty batching here. -/
def batch (l : List α) (n : Nat) : List (List α) :=
  batchAux l.length l n

/-- Result record of one add_documents call: the store after the call, the
list of batches handed to the underlying store (one entry per
vector_store.add_documents invocation), the returned message, and the
chunks_with_ids local computed before the store is consulted. -/
structure AddOutcome where
  store : Store
  writes : List (List Document)
  message : Option String
  chunksWithIds : List Document
deriving DecidableEq

/-- ChromaVectorDB.add_documents (chroma.py lines 85-111): compute
chunks_with_ids, fetch the existing identifier set, keep only chunks whose
identifier is absent, no-op with a message when nothing is new, otherwise
write the new chunks in batches of 100. -/
def add_documents (s : Store) (documents : List Document)
    (metadata : List (List (String × Val))) : AddOutcome :=
  let chunks_with_ids := calculate_chunk_ids documents metadata
  let existing_ids := storedIds s
  let new_chunks := chunks_with_ids.filter (fun chunk => !(existing_ids.contains (idOf chunk)))
  if new_chunks.isEmpty then
    ⟨s, [], some "No new valid documents to add", chunks_with_ids⟩
  else
    ⟨(batch new_chunks 100).foldl (fun st b => vectorStoreAdd st b (b.map idOf)) s,
      batch new_chunks 100, none, chunks_with_ids⟩

/-- Modelled from the spec: store-side similarity search (spec section
4.3) returns up to k entries whose metadata matches every key/value pair
of the filter; the ranking is store defined, taken here in store order.
A filter of none means no restriction. -/
def matchesFilter (filter : List (String × Val)) (m : List (String × Val)) : Bool :=
  filter.all (fun kv => metaGet m kv.1 == some kv.2)

/-- Modelled from the spec: the external similarity search of the store,
restricted by the optional metadata filter, returning at most k results. -/
def similaritySearchModel (s : Store) (k : Int) (filter : Option (List (String × Val))) :
    List Document :=
  (((s.entries.map Prod.snd).filter (fun d =>
      match filter with
      | none => true
      | some f => matchesFilter f d.metadata)).take k.toNat)

/-- Result record of one search call: the similarity-search invocations
issued to the store, and the returned documents. -/
structure SearchOutcome where
  calls : List (String × Int × Option (List (String × Val)))
  results : List Document
deriving DecidableEq

/-- ChromaVectorDB.search (chroma.py lines 113-123): forwards query, k and
filter to vector_store.similarity_search and returns its results; the
method performs no validation of its own. -/
def search (s : Store) (query : String) (k : Int)
    (filter : Option (List (String × Val))) : SearchOutcome :=
  ⟨[(query, k, filter)], similaritySearchModel s k filter⟩

/-- The persist directory constant of chroma.py line 12. -/
def CHROMA_PATH : String := "chroma"

/-- The handle produced by the external Chroma constructor (chroma.py
lines 40-44): persist directory, embedding function and collection name. -/
structure Chroma where
  persist_directory : String
  embedding_function : String
  collection_name : String
deriving DecidableEq

/-- Per-instance state of ChromaVectorDB: the vector_store attribute,
None until connect assigns it (chroma.py line 22). -/
structure ChromaVectorDB where
  vector_store : Option Chroma
deriving DecidableEq

/-- Result record of one connect call: the instance afterwards, the handle
returned, and the store handles newly opened during the call. -/
structure ConnectResult where
  self : ChromaVectorDB
  ret : Chroma
  opened : List Chroma
deriving DecidableEq

/-- ChromaVectorDB.connect (chroma.py lines 31-45): return the existing
handle when vector_store is already set, otherwise construct a Chroma
handle for the collection and store it on the instance. -/
def connect (self : ChromaVectorDB) (index_name : String) (embedding : String) :
    ConnectResult :=
  match self.vector_store with
  | some vs => ⟨self, vs, []⟩
  | none => ⟨⟨some ⟨CHROMA_PATH, embedding, index_name⟩⟩,
      ⟨CHROMA_PATH, embedding, index_name⟩, [⟨CHROMA_PATH, embedding, index_name⟩]⟩

/-- Modelled from the spec: the external chunk splitter cuts each
document's text into pieces; the chopping algorithm itself is external
(RecursiveCharacterTextSplitter), abstracted by the pieces function, and
per spec section 4.1 every derived chunk inherits the metadata of its
source document, in document order. -/
def splitDocsModel (pieces : Document → List String) (docs : List Document) : List Document :=
  docs.flatMap (fun d => (pieces d).map (fun t => ⟨t, d.metadata⟩))

/-- Error taxonomy of spec section 7 for the splitter configuration. -/
inductive SplitError where
  | configurationError
deriving DecidableEq

/-- ChromaVectorDB.split_documents (chroma.py lines 137-142), with the
validation modelled from the spec: the splitter construction is external
library code, and spec section 4.1 has it fail with ConfigurationError
when chunk_overlap >= chunk_size, before any chunk is produced. -/
def split_documents (pieces : Document → List String) (documents : List Document)
    (chunk_size chunk_overlap : Int) : Except SplitError (List Document) :=
  if chunk_size ≤ chunk_overlap then Except.error SplitError.configurationError
  else Except.ok (splitDocsModel pieces documents)

/-- The permission overlay of app.py lines 57-67, passed by the embed
endpoint's background upload to add_documents for every chunk. -/
def embedOverlay : List (List (String × Val)) :=
  [[("user:editor", Val.vBool false),
    ("user:owner", Val.vBool true),
    ("user:admin", Val.vBool true),
    ("user:superadmin", Val.vBool true),
    ("user:root", Val.vBool true),
    ("user:system", Val.vBool true),
    ("user:anonymous", Val.vBool true)]]

/-- The editor-tier filter of app.py line 88. -/
def editorFilter : List (String × Val) := [("user:editor", Val.vBool true)]

/-- The owner-tier filter of app.py line 93. -/
def ownerFilter : List (String × Val) := [("user:owner", Val.vBool true)]

/-! ### Views of the identifier computation

assignedIds and assignedIndices recompute, over the page-identifier
sequence alone, the identifier strings and the chunk indices that
calculate_chunk_ids assigns; the bridge lemmas connect them. -/

/-- The identifier strings calculate_chunk_ids assigns, as a function of
the page-identifier sequence. -/
def assignedIdsAux (last : Option String) (idx : Nat) : List String → List String
  | [] => []
  | p :: ps =>
    let n := if some p = last then idx + 1 else 0
    (p ++ ":" ++ toString n) :: assignedIdsAux (some p) n ps

/-- The identifier strings assigned to a chunk sequence. -/
def assignedIds (chunks : List Document) : List String :=
  assignedIdsAux none 0 (chunks.map pageId)

/-- The chunk indices calculate_chunk_ids assigns, as a function of the
page-identifier sequence. -/
def assignedIndicesAux (last : Option String) (idx : Nat) : List String → List Nat
  | [] => []
  | p :: ps =>
    let n := if some p = last then idx + 1 else 0
    n :: assignedIndicesAux (some p) n ps

/-- The chunk indices assigned to a chunk sequence. -/
def assignedIndices (chunks : List Document) : List Nat :=
  assignedIndicesAux none 0 (chunks.map pageId)

theorem metaGet_metaSet_self (m : List (String × Val)) (k : String) (v : Val) :
    metaGet (metaSet m k v) k = some v := by
  induction m with
  | nil => simp [metaSet, metaGet]
  | cons p rest ih =>
    by_cases h : p.1 = k
    · simp [metaSet, metaGet, h]
    · simp [metaSet, metaGet, h, ih]

theorem metaGet_metaSet_other (m : List (String × Val)) (k k' : String) (v : Val)
    (h : k' ≠ k) : metaGet (metaSet m k v) k' = metaGet m k' := by
  induction m with
  | nil => simp [metaSet, metaGet, Ne.symm h]
  | cons p rest ih =>
    by_cases hp : p.1 = k
    · have hpk' : p.1 ≠ k' := by rw [hp]; exact Ne.symm h
      simp [metaSet, hp, metaGet, hpk', Ne.symm h]
    · simp [metaSet, hp, metaGet, ih]

theorem idOf_calcIdsAux_nil_overlay (chunks : List Document) (last : Option String)
    (idx : Nat) :
    (calcIdsAux [] last idx chunks).map idOf = assignedIdsAux last idx (chunks.map pageId) := by
  induction chunks generalizing last idx with
  | nil => rfl
  | cons c rest ih =>
    simp only [calcIdsAux, List.isEmpty_nil, if_true, List.map_cons, assignedIdsAux, ih]
    congr 1
    simp [idOf, metaGet_metaSet_self, pyFormat]

theorem map_idOf_calculate_chunk_ids (chunks : List Document) :
    (calculate_chunk_ids chunks []).map idOf = assignedIds chunks :=
  idOf_calcIdsAux_nil_overlay chunks none 0

theorem assignedIdsAux_eq_zipWith (ps : List String) (last : Option String) (idx : Nat) :
    assignedIdsAux last idx ps =
      List.zipWith (fun p n => p ++ ":" ++ toString n) ps (assignedIndicesAux last idx ps) := by
  induction ps generalizing last idx with
  | nil => rfl
  | cons p rest ih => simp [assignedIdsAux, assignedIndicesAux, ih]

theorem assignedIds_eq_zipWith (chunks : List Document) :
    assignedIds chunks =
      List.zipWith (fun p n => p ++ ":" ++ toString n) (chunks.map pageId)
        (assignedIndices chunks) :=
  assignedIdsAux_eq_zipWith (chunks.map pageId) none 0

/-! ### Batch lemmas -/

theorem batchAux_nil (fuel n : Nat) : batchAux fuel ([] : List α) n = [] := by
  cases fuel with
  | zero => rfl
  | succ f => simp [batchAux]

theorem batchAux_fuel :
    ∀ (f₁ : Nat) (l : List α) (f₂ n : Nat), l.length ≤ f₁ → l.length ≤ f₂ →
      batchAux f₁ l n = batchAux f₂ l n := by
  intro f₁
  induction f₁ with
  | zero =>
    intro l f₂ n h₁ h₂
    have : l = [] := List.length_eq_zero.mp (Nat.le_zero.mp h₁)
    subst this
    rw [batchAux_nil, batchAux_nil]
  | succ f ih =>
    intro l f₂ n h₁ h₂
    cases l with
    | nil => rw [batchAux_nil, batchAux_nil]
    | cons x xs =>
      cases f₂ with
      | zero =>
        exact absurd h₂ (by simp)
      | succ g =>
        simp only [batchAux]
        by_cases hn : n = 0
        · simp [hn]
        · have hlen : ((x :: xs).drop n).length = xs.length + 1 - n := by
            rw [List.length_drop, List.length_cons]
          have hd : ((x :: xs).drop n).length ≤ f := by
            rw [hlen]
            simp only [List.length_cons] at h₁
            omega
          have hd₂ : ((x :: xs).drop n).length ≤ g := by
            rw [hlen]
            simp only [List.length_cons] at h₂
            omega
          rw [ih ((x :: xs).drop n) g n hd hd₂]

theorem batch_nil (n : Nat) : batch ([] : List α) n = [] := rfl

theorem batch_cons_eq (l : List α) (n : Nat) (hl : l ≠ []) (hn : n ≠ 0) :
    batch l n = l.take n :: batch (l.drop n) n := by
  cases l with
  | nil => exact absurd rfl hl
  | cons x xs =>
    show batchAux (x :: xs).length (x :: xs) n = _
    rw [List.length_cons]
    simp only [batchAux]
    have hne : ¬((x :: xs).isEmpty = true ∨ n = 0) := by
      simp [hn]
    rw [if_neg hne]
    congr 1
    refine batchAux_fuel xs.length ((x :: xs).drop n) _ n ?_ le_rfl
    simp only [List.length_drop, List.length_cons]
    omega

theorem batch_join_aux (n : Nat) (hn : n ≠ 0) :
    ∀ (k : Nat) (l : List α), l.length ≤ k → (batch l n).flatten = l := by
  intro k
  induction k with
  | zero =>
    intro l hl
    have hnil : l = [] := List.length_eq_zero.mp (Nat.le_zero.mp hl)
    subst hnil
    simp [batch_nil]
  | succ k ih =>
    intro l hl
    rcases eq_or_ne l [] with rfl | hne
    · simp [batch_nil]
    · rw [batch_cons_eq l n hne hn, List.flatten_cons,
        ih (l.drop n) ?_, List.take_append_drop]
      have hpos : 0 < l.length := List.length_pos.mpr hne
      simp only [List.length_drop]
      omega

theorem batch_join (n : Nat) (hn : n ≠ 0) (l : List α) : (batch l n).flatten = l :=
  batch_join_aux n hn l.length l le_rfl

theorem batch_length_le_aux (n : Nat) (hn : n ≠ 0) :
    ∀ (k : Nat) (l : List α), l.length ≤ k → ∀ b ∈ batch l n, b.length ≤ n ∧ b ≠ [] := by
  intro k
  induction k with
  | zero =>
    intro l hl b hb
    have hnil : l = [] := List.length_eq_zero.mp (Nat.le_zero.mp hl)
    subst hnil
    simp [batch_nil] at hb
  | succ k ih =>
    intro l hl b hb
    rcases eq_or_ne l [] with rfl | hne
    · simp [batch_nil] at hb
    · rw [batch_cons_eq l n hne hn] at hb
      rcases List.mem_cons.mp hb with rfl | hb'
      · constructor
        · simpa using Nat.min_le_left n l.length
        · have hpos : 0 < l.length := List.length_pos.mpr hne
          intro he
          have hlen := congrArg List.length he
          simp only [List.length_take, List.length_nil] at hlen
          rcases Nat.min_eq_zero_iff.mp hlen with h0 | h0
          · exact hn h0
          · omega
      · refine ih (l.drop n) ?_ b hb'
        have hpos : 0 < l.length := List.length_pos.mpr hne
        simp only [List.length_drop]
        omega

theorem batch_length_le (n : Nat) (hn : n ≠ 0) (l : List α) :
    ∀ b ∈ batch l n, b.length ≤ n ∧ b ≠ [] :=
  batch_length_le_aux n hn l.length l le_rfl

theorem batch_sizes_250 (l : List α) (h : l.length = 250) :
    (batch l 100).map List.length = [100, 100, 50] := by
  have h1 : l ≠ [] := by
    intro e
    rw [e] at h
    simp at h
  have hd1 : (l.drop 100).length = 150 := by simp [List.length_drop, h]
  have hd2 : ((l.drop 100).drop 100).length = 50 := by simp [List.length_drop, h]
  have hd3 : (((l.drop 100).drop 100).drop 100).length = 0 := by simp [List.length_drop, h]
  have h2 : l.drop 100 ≠ [] := by
    intro e
    rw [e] at hd1
    simp at hd1
  have h3 : (l.drop 100).drop 100 ≠ [] := by
    intro e
    rw [e] at hd2
    simp at hd2
  have h4 : ((l.drop 100).drop 100).drop 100 = [] := List.length_eq_zero.mp hd3
  rw [batch_cons_eq l 100 h1 (by omega),
    batch_cons_eq (l.drop 100) 100 h2 (by omega),
    batch_cons_eq ((l.drop 100).drop 100) 100 h3 (by omega),
    h4, batch_nil]
  simp [List.length_take, h, hd1, hd2]

/-! ### Store write lemmas -/

/-- Writing a chunk list one by one, each under its computed identifier;
the batched writes of add_documents reduce to this. -/
def writeAll (s : Store) (docs : List Document) : Store :=
  docs.foldl (fun st c => upsertOne st (idOf c) c) s

theorem writeAll_cons (s : Store) (c : Document) (t : List Document) :
    writeAll s (c :: t) = writeAll (upsertOne s (idOf c) c) t := rfl

theorem vectorStoreAdd_map_idOf (s : Store) (b : List Document) :
    vectorStoreAdd s b (b.map idOf) = writeAll s b := by
  induction b generalizing s with
  | nil => rfl
  | cons c t ih =>
    simp only [vectorStoreAdd, List.map_cons, List.zip_cons_cons, List.foldl_cons]
    simpa [vectorStoreAdd, writeAll] using ih (upsertOne s (idOf c) c)

theorem writeAll_append (s : Store) (a b : List Document) :
    writeAll s (a ++ b) = writeAll (writeAll s a) b := by
  simp [writeAll, List.foldl_append]

theorem foldl_writeAll_join (s : Store) (L : List (List Document)) :
    L.foldl (fun st b => writeAll st b) s = writeAll s L.flatten := by
  induction L generalizing s with
  | nil => rfl
  | cons a t ih => simp [List.flatten_cons, writeAll_append, ih]

theorem batched_writes_eq_writeAll (s : Store) (nc : List Document) :
    (batch nc 100).foldl (fun st b => vectorStoreAdd st b (b.map idOf)) s = writeAll s nc := by
  have hf : (fun (st : Store) (b : List Document) => vectorStoreAdd st b (b.map idOf))
      = fun st b => writeAll st b := by
    funext st b
    exact vectorStoreAdd_map_idOf st b
  rw [hf, foldl_writeAll_join, batch_join 100 (by omega) nc]

theorem lookupEntries_upsertEntries_self (entries : List (String × Document))
    (id : String) (d : Document) :
    lookupEntries (upsertEntries entries id d) id = some d := by
  induction entries with
  | nil => simp [upsertEntries, lookupEntries]
  | cons p rest ih =>
    by_cases h : p.1 = id
    · simp [upsertEntries, lookupEntries, h]
    · simp [upsertEntries, lookupEntries, h, ih]

theorem lookupEntries_upsertEntries_other (entries : List (String × Document))
    (id x : String) (d : Document) (h : x ≠ id) :
    lookupEntries (upsertEntries entries id d) x = lookupEntries entries x := by
  induction entries with
  | nil => simp [upsertEntries, lookupEntries, Ne.symm h]
  | cons p rest ih =>
    by_cases hp : p.1 = id
    · have hpx : p.1 ≠ x := by rw [hp]; exact Ne.symm h
      simp [upsertEntries, lookupEntries, hp, hpx, Ne.symm h]
    · simp [upsertEntries, lookupEntries, hp, ih]

theorem storeGet_upsertOne_other (s : Store) (id x : String) (d : Document) (h : x ≠ id) :
    storeGet (upsertOne s id d) x = storeGet s x :=
  lookupEntries_upsertEntries_other s.entries id x d h

theorem map_fst_upsertEntries (entries : List (String × Document)) (id : String) (d : Document) :
    (upsertEntries entries id d).map Prod.fst =
      if id ∈ entries.map Prod.fst then entries.map Prod.fst else entries.map Prod.fst ++ [id] := by
  induction entries with
  | nil => simp [upsertEntries]
  | cons p rest ih =>
    by_cases h : p.1 = id
    · simp [upsertEntries, h]
    · simp only [upsertEntries, h, ite_false, List.map_cons, ih]
      by_cases hm : id ∈ rest.map Prod.fst
      · simp [List.mem_cons, hm, Ne.symm h]
      · simp [List.mem_cons, hm, Ne.symm h]

theorem mem_storedIds_upsertOne (s : Store) (id x : String) (d : Document)
    (h : x ∈ storedIds s) : x ∈ storedIds (upsertOne s id d) := by
  simp only [storedIds, upsertOne, map_fst_upsertEntries]
  split
  · exact h
  · exact List.mem_append_left _ h

theorem self_mem_storedIds_upsertOne (s : Store) (id : String) (d : Document) :
    id ∈ storedIds (upsertOne s id d) := by
  simp only [storedIds, upsertOne, map_fst_upsertEntries]
  split
  · assumption
  · simp

theorem mem_storedIds_writeAll (s : Store) (docs : List Document) (x : String)
    (h : x ∈ storedIds s) : x ∈ storedIds (writeAll s docs) := by
  induction docs generalizing s with
  | nil => exact h
  | cons c t ih =>
    simp only [writeAll, List.foldl_cons]
    exact ih (upsertOne s (idOf c) c) (mem_storedIds_upsertOne s (idOf c) x c h)

theorem idOf_mem_storedIds_writeAll (s : Store) (docs : List Document) :
    ∀ c ∈ docs, idOf c ∈ storedIds (writeAll s docs) := by
  induction docs generalizing s with
  | nil => intro c hc; simp at hc
  | cons c t ih =>
    intro x hx
    rcases List.mem_cons.mp hx with rfl | hx'
    · simp only [writeAll, List.foldl_cons]
      exact mem_storedIds_writeAll (upsertOne s (idOf x) x) t (idOf x)
        (self_mem_storedIds_upsertOne s (idOf x) x)
    · simp only [writeAll, List.foldl_cons]
      exact ih (upsertOne s (idOf c) c) x hx'

theorem storeGet_writeAll_of_not_mem (s : Store) (docs : List Document) (x : String)
    (h : ∀ c ∈ docs, idOf c ≠ x) : storeGet (writeAll s docs) x = storeGet s x := by
  induction docs generalizing s with
  | nil => rfl
  | cons c t ih =>
    rw [writeAll_cons,
      ih (upsertOne s (idOf c) c) (fun d hd => h d (List.mem_cons_of_mem c hd))]
    exact storeGet_upsertOne_other s (idOf c) x c
      (fun he => h c (List.mem_cons_self c t) he.symm)

/-! ### add_documents lemmas -/

/-- The new_chunks local of add_documents (chroma.py lines 100-104): the
identified chunks whose identifier is not among the stored ones. -/
def newChunksOf (s : Store) (documents : List Document)
    (metadata : List (List (String × Val))) : List Document :=
  (calculate_chunk_ids documents metadata).filter
    (fun chunk => !((storedIds s).contains (idOf chunk)))

theorem contains_eq_true_iff (l : List String) (a : String) :
    l.contains a = true ↔ a ∈ l :=
  List.elem_iff

theorem add_documents_eq (s : Store) (documents : List Document)
    (metadata : List (List (String × Val))) :
    add_documents s documents metadata =
      if (newChunksOf s documents metadata).isEmpty then
        ⟨s, [], some "No new valid documents to add", calculate_chunk_ids documents metadata⟩
      else
        ⟨writeAll s (newChunksOf s documents metadata),
          batch (newChunksOf s documents metadata) 100, none,
          calculate_chunk_ids documents metadata⟩ := by
  simp only [add_documents, newChunksOf]
  split
  · rfl
  · rw [batched_writes_eq_writeAll]

theorem ids_present_after_add (s : Store) (cs : List Document)
    (m : List (List (String × Val))) :
    ∀ c ∈ calculate_chunk_ids cs m, idOf c ∈ storedIds (add_documents s cs m).store := by
  intro c hc
  rw [add_documents_eq]
  by_cases hnew : (newChunksOf s cs m).isEmpty
  · rw [if_pos hnew]
    have hall := List.filter_eq_nil_iff.mp (List.isEmpty_iff.mp hnew)
    have := hall c hc
    simp only [Bool.not_eq_true', Bool.not_eq_false] at this
    exact (contains_eq_true_iff _ _).mp this
  · rw [if_neg hnew]
    by_cases hmem : idOf c ∈ storedIds s
    · exact mem_storedIds_writeAll s _ _ hmem
    · refine idOf_mem_storedIds_writeAll s _ c ?_
      refine List.mem_filter.mpr ⟨hc, ?_⟩
      simp only [Bool.not_eq_true']
      exact (Bool.not_eq_true _).mp
        (fun ht => hmem ((contains_eq_true_iff _ _).mp ht))

/-- C1 helper: after one add_documents call, the new-chunk computation of
an identical second call comes out empty. -/
theorem newChunksOf_after_add (s : Store) (cs : List Document)
    (m : List (List (String × Val))) :
    newChunksOf (add_documents s cs m).store cs m = [] := by
  refine List.filter_eq_nil_iff.mpr ?_
  intro c hc
  simp only [Bool.not_eq_true', Bool.not_eq_false]
  exact (contains_eq_true_iff _ _).mpr (ids_present_after_add s cs m c hc)

/-- C1: ingestion is idempotent.  After any add_documents call, a second
call with the identically-identified chunk sequence finds every computed
identifier already stored: its new-chunk list is empty, it performs no
store write, it returns the no-new-documents message, and it leaves the
store (hence the stored chunk count) unchanged. -/
theorem add_documents_idempotent (s : Store) (cs : List Document)
    (m : List (List (String × Val))) :
    newChunksOf (add_documents s cs m).store cs m = []
    ∧ (add_documents (add_documents s cs m).store cs m).writes = []
    ∧ (add_documents (add_documents s cs m).store cs m).message
        = some "No new valid documents to add"
    ∧ (add_documents (add_documents s cs m).store cs m).store = (add_documents s cs m).store
    ∧ ((add_documents (add_documents s cs m).store cs m).store.entries).length
        = ((add_documents s cs m).store.entries).length := by
  have h := newChunksOf_after_add s cs m
  have hrw := add_documents_eq (add_documents s cs m).store cs m
  rw [h, if_pos List.isEmpty_nil] at hrw
  rw [hrw]
  exact ⟨h, rfl, rfl, rfl, rfl⟩

/-- C5: batch boundary.  When the new-chunk list is nonempty, the writes
add_documents issues are exactly the consecutive 100-slices of that list:
they flatten back to the list (each new chunk is written in exactly one
call), every call carries at most 100 chunks, and 250 new chunks give
exactly the three calls of sizes 100, 100 and 50. -/
theorem add_documents_batch_boundary (s : Store) (cs : List Document)
    (m : List (List (String × Val))) (h : newChunksOf s cs m ≠ []) :
    (add_documents s cs m).writes = batch (newChunksOf s cs m) 100
    ∧ ((add_documents s cs m).writes).flatten = newChunksOf s cs m
    ∧ (∀ b ∈ (add_documents s cs m).writes, b.length ≤ 100 ∧ b ≠ [])
    ∧ ((newChunksOf s cs m).length = 250 →
        ((add_documents s cs m).writes).map List.length = [100, 100, 50]) := by
  have hcond : ¬((newChunksOf s cs m).isEmpty = true) :=
    fun hx => h (List.isEmpty_iff.mp hx)
  rw [add_documents_eq, if_neg hcond]
  refine ⟨rfl, batch_join 100 (by omega) _, batch_length_le 100 (by omega) _, ?_⟩
  intro h250
  exact batch_sizes_250 _ h250

/-- C9: frame property of ingestion.  Every chunk handed to the store has
an identifier absent from the pre-call stored set, the stored identifier
set only grows, and every entry whose identifier was already stored is
left unchanged. -/
theorem add_documents_frame (s : Store) (cs : List Document)
    (m : List (List (String × Val))) :
    (∀ b ∈ (add_documents s cs m).writes, ∀ c ∈ b, ¬ idOf c ∈ storedIds s)
    ∧ (∀ id ∈ storedIds s, id ∈ storedIds (add_documents s cs m).store)
    ∧ (∀ id ∈ storedIds s, storeGet (add_documents s cs m).store id = storeGet s id) := by
  have hnew : ∀ c ∈ newChunksOf s cs m, ¬ idOf c ∈ storedIds s := by
    intro c hc
    have := (List.mem_filter.mp hc).2
    simp only [Bool.not_eq_true'] at this
    exact fun hm => by
      rw [(contains_eq_true_iff _ _).mpr hm] at this
      exact Bool.true_eq_false.mp this
  rw [add_documents_eq]
  by_cases hempty : (newChunksOf s cs m).isEmpty
  · rw [if_pos hempty]
    refine ⟨?_, fun id hid => hid, fun id hid => rfl⟩
    intro b hb
    simp at hb
  · rw [if_neg hempty]
    refine ⟨?_, ?_, ?_⟩
    · intro b hb c hc
      have hcnew : c ∈ newChunksOf s cs m := by
        rw [← batch_join 100 (by omega) (newChunksOf s cs m)]
        exact List.mem_flatten.mpr ⟨b, hb, hc⟩
      exact hnew c hcnew
    · intro id hid
      exact mem_storedIds_writeAll s _ id hid
    · intro id hid
      exact storeGet_writeAll_of_not_mem s _ id
        (fun c hc he => hnew c hc (he ▸ hid))

/-! ### Claims C4, C6, C7, C8 -/

/-- C4: determinism of chunk identification.  calculate_chunk_ids is a
pure function of its input sequence: equal inputs give equal identifier
assignments on any two runs, and the chunks_with_ids stage computed inside
add_documents does not depend on the contents of the store. -/
theorem calculate_chunk_ids_deterministic (s₁ s₂ : Store) (cs₁ cs₂ : List Document)
    (m₁ m₂ : List (List (String × Val))) (hcs : cs₁ = cs₂) (hm : m₁ = m₂) :
    calculate_chunk_ids cs₁ m₁ = calculate_chunk_ids cs₂ m₂
    ∧ (add_documents s₁ cs₁ m₁).chunksWithIds = (add_documents s₂ cs₂ m₂).chunksWithIds := by
  subst hcs
  subst hm
  have hfield : ∀ (s : Store), (add_documents s cs₁ m₁).chunksWithIds
      = calculate_chunk_ids cs₁ m₁ := by
    intro s
    rw [add_documents_eq]
    split <;> rfl
  exact ⟨rfl, by rw [hfield, hfield]⟩

/-- C6: invalid split configuration.  Whenever chunk_overlap is at least
chunk_size, split_documents fails with ConfigurationError and no chunk
sequence is produced. -/
theorem split_documents_invalid_config (pieces : Document → List String)
    (documents : List Document) (chunk_size chunk_overlap : Int)
    (h : chunk_size ≤ chunk_overlap) :
    split_documents pieces documents chunk_size chunk_overlap
        = Except.error SplitError.configurationError
    ∧ ∀ out, split_documents pieces documents chunk_size chunk_overlap ≠ Except.ok out := by
  have he : split_documents pieces documents chunk_size chunk_overlap
      = Except.error SplitError.configurationError := by
    simp [split_documents, h]
  exact ⟨he, fun out hout => by rw [he] at hout; exact Except.noConfusion hout⟩

theorem split_documents_invalid_config_witness :
    split_documents (fun _ => []) [] 400 400 = Except.error SplitError.configurationError :=
  (split_documents_invalid_config (fun _ => []) [] 400 400 (le_refl 400)).1

/-- C7 counterexample: at the concrete input k = 0 the search method does
contact the store: exactly one similarity-search call is issued, so the
claimed fail-without-contacting-the-store behaviour does not hold. -/
theorem search_k_zero_counterexample :
    (search ⟨[]⟩ "q" 0 none).calls = [("q", 0, none)]
    ∧ (search ⟨[]⟩ "q" 0 none).calls ≠ [] :=
  ⟨rfl, by decide⟩

/-- C7 (amended): search performs no validation of k.  For every query,
every filter and every k — non-positive k included — it issues exactly one
similarity-search call with the given arguments and returns that call's
results. -/
theorem search_forwards_any_k (s : Store) (q : String) (k : Int)
    (f : Option (List (String × Val))) :
    (search s q k f).calls = [(q, k, f)]
    ∧ (search s q k f).results = similaritySearchModel s k f :=
  ⟨rfl, rfl⟩

/-- C8: connect is idempotent.  Once an instance holds a store handle,
every further connect call — whatever its index_name and embedding
arguments — returns that handle unchanged, leaves the instance unchanged
and opens nothing; only a connect call on an instance with no handle opens
the collection, and it opens exactly one handle. -/
theorem connect_idempotent (st : ChromaVectorDB) (h : Chroma) (idx emb idx₂ emb₂ : String)
    (hconn : st.vector_store = some h) :
    connect st idx emb = ⟨st, h, []⟩
    ∧ (connect ⟨none⟩ idx₂ emb₂).opened = [⟨CHROMA_PATH, emb₂, idx₂⟩]
    ∧ (connect ⟨none⟩ idx₂ emb₂).self.vector_store = some ⟨CHROMA_PATH, emb₂, idx₂⟩
    ∧ (connect ⟨none⟩ idx₂ emb₂).ret = ⟨CHROMA_PATH, emb₂, idx₂⟩ := by
  refine ⟨?_, rfl, rfl, rfl⟩
  obtain ⟨vs⟩ := st
  cases vs with
  | none => exact absurd hconn (by simp)
  | some h' =>
    obtain rfl : h' = h := Option.some.inj hconn
    rfl

theorem connect_idempotent_witness :
    connect ⟨some ⟨"chroma", "e", "i"⟩⟩ "j" "f"
      = ⟨⟨some ⟨"chroma", "e", "i"⟩⟩, ⟨"chroma", "e", "i"⟩, []⟩ :=
  (connect_idempotent ⟨some ⟨"chroma", "e", "i"⟩⟩ ⟨"chroma", "e", "i"⟩ "j" "f" "i2" "e2" rfl).1

/-! ### Claim C10: the editor tier is unreachable for service-ingested chunks -/

theorem metaGet_applyItems_embedOverlay_editor (m : List (String × Val)) :
    metaGet (applyItems m embedOverlay) "user:editor" = some (Val.vBool false) := by
  simp only [applyItems, embedOverlay, List.foldl_cons, List.foldl_nil]
  rw [metaGet_metaSet_other _ _ _ _ (by decide), metaGet_metaSet_other _ _ _ _ (by decide),
    metaGet_metaSet_other _ _ _ _ (by decide), metaGet_metaSet_other _ _ _ _ (by decide),
    metaGet_metaSet_other _ _ _ _ (by decide), metaGet_metaSet_other _ _ _ _ (by decide),
    metaGet_metaSet_self]

theorem metaGet_applyItems_embedOverlay_owner (m : List (String × Val)) :
    metaGet (applyItems m embedOverlay) "user:owner" = some (Val.vBool true) := by
  simp only [applyItems, embedOverlay, List.foldl_cons, List.foldl_nil]
  rw [metaGet_metaSet_other _ _ _ _ (by decide), metaGet_metaSet_other _ _ _ _ (by decide),
    metaGet_metaSet_other _ _ _ _ (by decide), metaGet_metaSet_other _ _ _ _ (by decide),
    metaGet_metaSet_other _ _ _ _ (by decide), metaGet_metaSet_self]

theorem mem_calcIdsAux_embedOverlay (cs : List Document) (last : Option String) (idx : Nat) :
    ∀ c ∈ calcIdsAux embedOverlay last idx cs,
      metaGet c.metadata "user:editor" = some (Val.vBool false)
      ∧ metaGet c.metadata "user:owner" = some (Val.vBool true) := by
  induction cs generalizing last idx with
  | nil =>
    intro c hc
    simp [calcIdsAux] at hc
  | cons a t ih =>
    intro c hc
    have hov : embedOverlay.isEmpty = false := rfl
    rw [calcIdsAux] at hc
    rcases List.mem_cons.mp hc with rfl | h'
    · simp only [hov, Bool.false_eq_true, if_false]
      exact ⟨metaGet_applyItems_embedOverlay_editor _, metaGet_applyItems_embedOverlay_owner _⟩
    · exact ih _ _ c h'

theorem matchesFilter_editor_eq_false (m : List (String × Val))
    (h : metaGet m "user:editor" = some (Val.vBool false)) :
    matchesFilter editorFilter m = false := by
  simp [matchesFilter, editorFilter, h]

theorem mem_upsertEntries (entries : List (String × Document)) (id : String) (d : Document) :
    ∀ q ∈ upsertEntries entries id d, q ∈ entries ∨ q = (id, d) := by
  induction entries with
  | nil =>
    intro q hq
    simp [upsertEntries] at hq
    exact Or.inr hq
  | cons p rest ih =>
    intro q hq
    by_cases h : p.1 = id
    · simp only [upsertEntries, h, if_true] at hq
      rcases List.mem_cons.mp hq with rfl | h'
      · exact Or.inr rfl
      · exact Or.inl (List.mem_cons_of_mem p h')
    · simp only [upsertEntries, h, if_false] at hq
      rcases List.mem_cons.mp hq with rfl | h'
      · exact Or.inl (List.mem_cons_self q rest)
      · rcases ih q h' with h'' | h''
        · exact Or.inl (List.mem_cons_of_mem p h'')
        · exact Or.inr h''

theorem mem_entries_writeAll (s : Store) (docs : List Document) :
    ∀ q ∈ (writeAll s docs).entries, q ∈ s.entries ∨ q.2 ∈ docs := by
  induction docs generalizing s with
  | nil => intro q hq; exact Or.inl hq
  | cons c t ih =>
    intro q hq
    rw [writeAll_cons] at hq
    rcases ih (upsertOne s (idOf c) c) q hq with h' | h'
    · rcases mem_upsertEntries s.entries (idOf c) c q h' with h'' | h''
      · exact Or.inl h''
      · refine Or.inr ?_
        rw [h'']
        exact List.mem_cons_self c t
    · exact Or.inr (List.mem_cons_of_mem c h')

/-- C10: editor tier unreachable for service-ingested content.  Every
chunk identified with the embed endpoint's permission overlay carries
user:editor = False and user:owner = True and therefore falls outside the
editor filter; consequently an editor-filtered search against the store
after such an ingestion can only return documents that were entries of the
store before the call. -/
theorem editor_tier_unreachable (s : Store) (cs : List Document) (q : String) (k : Int)
    (d : Document) (hd : d ∈ (search (add_documents s cs embedOverlay).store q k
      (some editorFilter)).results) :
    (∀ c ∈ calculate_chunk_ids cs embedOverlay,
      metaGet c.metadata "user:editor" = some (Val.vBool false)
      ∧ metaGet c.metadata "user:owner" = some (Val.vBool true)
      ∧ matchesFilter editorFilter c.metadata = false)
    ∧ d ∈ s.entries.map Prod.snd := by
  have hover : ∀ c ∈ calculate_chunk_ids cs embedOverlay,
      metaGet c.metadata "user:editor" = some (Val.vBool false)
      ∧ metaGet c.metadata "user:owner" = some (Val.vBool true)
      ∧ matchesFilter editorFilter c.metadata = false := by
    intro c hc
    have h := mem_calcIdsAux_embedOverlay cs none 0 c hc
    exact ⟨h.1, h.2, matchesFilter_editor_eq_false _ h.1⟩
  refine ⟨hover, ?_⟩
  have htake : d ∈ (((add_documents s cs embedOverlay).store.entries.map Prod.snd).filter
      (fun x => matchesFilter editorFilter x.metadata)).take k.toNat := by
    simpa [search, similaritySearchModel] using hd
  have hmem : d ∈ ((add_documents s cs embedOverlay).store.entries.map Prod.snd).filter
      (fun x => matchesFilter editorFilter x.metadata) :=
    List.take_subset _ _ htake
  have hdoc := List.mem_filter.mp hmem
  have hfil : matchesFilter editorFilter d.metadata = true := hdoc.2
  obtain ⟨p, hp, hpd⟩ := List.mem_map.mp hdoc.1
  rw [add_documents_eq] at hp
  by_cases hempty : (newChunksOf s cs embedOverlay).isEmpty
  · rw [if_pos hempty] at hp
    exact List.mem_map.mpr ⟨p, hp, hpd⟩
  · rw [if_neg hempty] at hp
    rcases mem_entries_writeAll s (newChunksOf s cs embedOverlay) p hp with h' | h'
    · exact List.mem_map.mpr ⟨p, h', hpd⟩
    · exfalso
      have hc : p.2 ∈ calculate_chunk_ids cs embedOverlay := (List.mem_filter.mp h').1
      have := (hover p.2 hc).2.2
      rw [hpd] at this
      rw [this] at hfil
      exact Bool.false_ne_true hfil

/-! ### Decimal representation facts

The identifiers are strings p ++ ":" ++ toString n, and the uniqueness
argument of claim C2 needs that the decimal part is colon free and that
the decimal representation is injective. -/

/-- The value of a decimal digit character. -/
def digitVal (c : Char) : Nat := c.toNat - 48

/-- The number denoted by a list of decimal digit characters. -/
def digitsVal (ds : List Char) : Nat := ds.foldl (fun a c => 10 * a + digitVal c) 0

theorem digitChar_ne_colon : ∀ m < 10, Nat.digitChar m ≠ ':' := by decide

theorem digitVal_digitChar : ∀ m < 10, digitVal (Nat.digitChar m) = m := by decide

theorem toDigitsCore_ne_colon :
    ∀ (fuel n : Nat) (ds : List Char), (∀ c ∈ ds, c ≠ ':') →
      ∀ c ∈ Nat.toDigitsCore 10 fuel n ds, c ≠ ':' := by
  intro fuel
  induction fuel with
  | zero => intro n ds h c hc; exact h c hc
  | succ fuel ih =>
    intro n ds h c hc
    rw [Nat.toDigitsCore] at hc
    have hds : ∀ x ∈ Nat.digitChar (n % 10) :: ds, x ≠ ':' := by
      intro x hx
      rcases List.mem_cons.mp hx with rfl | hx'
      · exact digitChar_ne_colon (n % 10) (Nat.mod_lt n (by omega))
      · exact h x hx'
    by_cases hdiv : n / 10 = 0
    · simp only [hdiv, if_true] at hc
      exact hds c hc
    · simp only [hdiv, if_false] at hc
      exact ih (n / 10) (Nat.digitChar (n % 10) :: ds) hds c hc

theorem repr_ne_colon (n : Nat) : ∀ c ∈ (Nat.repr n).data, c ≠ ':' := by
  intro c hc
  have h : (Nat.repr n).data = Nat.toDigitsCore 10 (n + 1) n [] := rfl
  rw [h] at hc
  exact toDigitsCore_ne_colon (n + 1) n [] (by intro x hx; simp at hx) c hc

theorem foldl_digitsVal (ds : List Char) :
    ∀ a : Nat, ds.foldl (fun a c => 10 * a + digitVal c) a
      = a * 10 ^ ds.length + ds.foldl (fun a c => 10 * a + digitVal c) 0 := by
  induction ds with
  | nil => intro a; simp
  | cons c t ih =>
    intro a
    simp only [List.foldl_cons, List.length_cons]
    rw [ih (10 * a + digitVal c), ih (10 * 0 + digitVal c)]
    ring

theorem digitsVal_cons (c : Char) (t : List Char) :
    digitsVal (c :: t) = digitVal c * 10 ^ t.length + digitsVal t := by
  simp only [digitsVal, List.foldl_cons]
  rw [foldl_digitsVal]
  ring

theorem digitsVal_toDigitsCore :
    ∀ (fuel n : Nat) (ds : List Char), n < 10 ^ fuel →
      digitsVal (Nat.toDigitsCore 10 fuel n ds) = n * 10 ^ ds.length + digitsVal ds := by
  intro fuel
  induction fuel with
  | zero =>
    intro n ds h
    have hn : n = 0 := by
      simp [Nat.pow_zero] at h
      omega
    subst hn
    simp [Nat.toDigitsCore]
  | succ fuel ih =>
    intro n ds h
    rw [Nat.toDigitsCore]
    have hmod : n % 10 < 10 := Nat.mod_lt n (by omega)
    by_cases hdiv : n / 10 = 0
    · have hnlt : n < 10 := by omega
      have hmodn : n % 10 = n := Nat.mod_eq_of_lt hnlt
      simp only [hdiv, if_true]
      rw [digitsVal_cons, digitVal_digitChar (n % 10) hmod, hmodn]
    · simp only [hdiv, if_false]
      have hlt : n / 10 < 10 ^ fuel := by
        rw [Nat.div_lt_iff_lt_mul (by omega)]
        calc n < 10 ^ (fuel + 1) := h
        _ = 10 ^ fuel * 10 := by rw [Nat.pow_succ]
      rw [ih (n / 10) (Nat.digitChar (n % 10) :: ds) hlt]
      have hsplit : digitsVal (Nat.digitChar (n % 10) :: ds)
          = (n % 10) * 10 ^ ds.length + digitsVal ds := by
        rw [digitsVal_cons, digitVal_digitChar (n % 10) hmod]
      rw [hsplit, List.length_cons]
      have hnm : n / 10 * 10 + n % 10 = n := by omega
      calc n / 10 * 10 ^ (ds.length + 1) + ((n % 10) * 10 ^ ds.length + digitsVal ds)
          = (n / 10 * 10 + n % 10) * 10 ^ ds.length + digitsVal ds := by ring
        _ = n * 10 ^ ds.length + digitsVal ds := by rw [hnm]

theorem digitsVal_repr (n : Nat) : digitsVal (Nat.repr n).data = n := by
  have h : (Nat.repr n).data = Nat.toDigitsCore 10 (n + 1) n [] := rfl
  rw [h]
  have hn : n < 10 ^ (n + 1) := by
    calc n < 10 ^ n := Nat.lt_pow_self (by omega) n
    _ ≤ 10 ^ (n + 1) := Nat.pow_le_pow_right (by omega) (by omega)
  rw [digitsVal_toDigitsCore (n + 1) n [] hn]
  simp [digitsVal]

theorem repr_data_injective (n₁ n₂ : Nat) (h : (Nat.repr n₁).data = (Nat.repr n₂).data) :
    n₁ = n₂ := by
  rw [← digitsVal_repr n₁, ← digitsVal_repr n₂, h]

/-- Splitting a character list at the last occurrence of a colon is
unambiguous: if the suffixes are colon free, the decompositions agree. -/
theorem colon_split :
    ∀ (a₁ a₂ b₁ b₂ : List Char), (∀ c ∈ b₁, c ≠ ':') → (∀ c ∈ b₂, c ≠ ':') →
      a₁ ++ ':' :: b₁ = a₂ ++ ':' :: b₂ → a₁ = a₂ ∧ b₁ = b₂ := by
  intro a₁
  induction a₁ with
  | nil =>
    intro a₂ b₁ b₂ h₁ h₂ he
    cases a₂ with
    | nil =>
      simp only [List.nil_append] at he
      exact ⟨rfl, (List.cons.inj he).2⟩
    | cons x t =>
      simp only [List.nil_append, List.cons_append] at he
      obtain ⟨hx, hrest⟩ := List.cons.inj he
      exfalso
      refine h₁ ':' ?_ rfl
      rw [hrest]
      exact List.mem_append_right t (List.mem_cons_self ':' b₂)
  | cons x t ih =>
    intro a₂ b₁ b₂ h₁ h₂ he
    cases a₂ with
    | nil =>
      simp only [List.nil_append, List.cons_append] at he
      obtain ⟨hx, hrest⟩ := List.cons.inj he
      exfalso
      refine h₂ ':' ?_ rfl
      rw [← hrest]
      exact List.mem_append_right t (List.mem_cons_self ':' b₁)
    | cons y u =>
      simp only [List.cons_append] at he
      obtain ⟨hx, hrest⟩ := List.cons.inj he
      obtain ⟨hu, hb⟩ := ih u b₁ b₂ h₁ h₂ hrest
      exact ⟨by rw [hx, hu], hb⟩

theorem string_data_append (s t : String) : (s ++ t).data = s.data ++ t.data :=
  String.data_append s t

/-- Injectivity of the identifier encoding p ++ ":" ++ toString n. -/
theorem id_encoding_injective (p₁ p₂ : String) (n₁ n₂ : Nat)
    (h : p₁ ++ ":" ++ toString n₁ = p₂ ++ ":" ++ toString n₂) : p₁ = p₂ ∧ n₁ = n₂ := by
  have hdata : p₁.data ++ ':' :: (Nat.repr n₁).data = p₂.data ++ ':' :: (Nat.repr n₂).data := by
    have h1 := congrArg String.data h
    rw [string_data_append, string_data_append, string_data_append, string_data_append] at h1
    simpa using h1
  obtain ⟨hp, hn⟩ := colon_split p₁.data p₂.data (Nat.repr n₁).data (Nat.repr n₂).data
    (repr_ne_colon n₁) (repr_ne_colon n₂) hdata
  constructor
  · cases p₁
    cases p₂
    exact congrArg String.mk hp
  · exact repr_data_injective n₁ n₂ hn

/-! ### Claim C2: uniqueness of assigned identifiers -/

theorem assignedIdsAux_replicate_cont (p : String) (rest : List String) :
    ∀ (k idx : Nat), assignedIdsAux (some p) idx (List.replicate k p ++ rest)
      = (List.range k).map (fun i => p ++ ":" ++ toString (idx + 1 + i))
        ++ assignedIdsAux (some p) (idx + k) rest := by
  intro k
  induction k with
  | zero => intro idx; simp
  | succ k ih =>
    intro idx
    rw [List.replicate_succ, List.cons_append]
    simp only [assignedIdsAux, eq_self_iff_true, if_true]
    rw [ih (idx + 1), List.range_succ_eq_map]
    simp only [List.map_cons, List.map_map]
    have hfun : ((fun i => p ++ ":" ++ toString (idx + 1 + i)) ∘ Nat.succ)
        = fun i => p ++ ":" ++ toString (idx + 1 + 1 + i) := by
      funext i
      simp only [Function.comp]
      have : idx + 1 + (i + 1) = idx + 1 + 1 + i := by omega
      rw [Nat.succ_eq_add_one, this]
    have hidx : idx + (k + 1) = idx + 1 + k := by omega
    rw [hfun, hidx]
    simp

theorem assignedIdsAux_shape :
    ∀ (ps : List String) (last : Option String) (idx : Nat),
      ∀ x ∈ assignedIdsAux last idx ps, ∃ p ∈ ps, ∃ n : Nat, x = p ++ ":" ++ toString n := by
  intro ps
  induction ps with
  | nil =>
    intro last idx x hx
    simp [assignedIdsAux] at hx
  | cons p t ih =>
    intro last idx x hx
    simp only [assignedIdsAux] at hx
    rcases List.mem_cons.mp hx with rfl | hx'
    · exact ⟨p, List.mem_cons_self _ _, _, rfl⟩
    · obtain ⟨q, hq, n, hn⟩ := ih _ _ x hx'
      exact ⟨q, List.mem_cons_of_mem p hq, n, hn⟩

theorem mem_flatMap_replicate (runs : List (String × Nat)) (x : String)
    (hx : x ∈ runs.flatMap (fun r => List.replicate r.2 r.1)) : x ∈ runs.map Prod.fst := by
  obtain ⟨r, hr, hxr⟩ := List.mem_flatMap.mp hx
  rw [List.eq_of_mem_replicate hxr]
  exact List.mem_map_of_mem Prod.fst hr

theorem assignedIdsAux_runs_nodup :
    ∀ (runs : List (String × Nat)) (last : Option String) (idx : Nat),
      (runs.map Prod.fst).Nodup →
      (∀ r ∈ runs, last ≠ some r.1) →
      (assignedIdsAux last idx (runs.flatMap (fun r => List.replicate r.2 r.1))).Nodup := by
  intro runs
  induction runs with
  | nil =>
    intro last idx h1 h2
    simp [assignedIdsAux]
  | cons r rest ih =>
    intro last idx h1 h2
    obtain ⟨p, k⟩ := r
    have h1' : (rest.map Prod.fst).Nodup := by
      rw [List.map_cons] at h1
      exact (List.nodup_cons.mp h1).2
    have hpnotin : p ∉ rest.map Prod.fst := by
      rw [List.map_cons] at h1
      exact (List.nodup_cons.mp h1).1
    rw [List.flatMap_cons]
    cases k with
    | zero =>
      simp only [List.replicate_zero, List.nil_append]
      exact ih last idx h1' (fun r hr => h2 r (List.mem_cons_of_mem _ hr))
    | succ k' =>
      rw [List.replicate_succ, List.cons_append]
      have hlastp : ¬ (some p = last) :=
        fun he => h2 (p, k' + 1) (List.mem_cons_self _ _) he.symm
      simp only [assignedIdsAux, if_neg hlastp]
      rw [assignedIdsAux_replicate_cont p _ k' 0]
      have hrest0 : ∀ x ∈ assignedIdsAux (some p) (0 + k')
          (rest.flatMap (fun r => List.replicate r.2 r.1)),
          ∃ q ∈ rest.map Prod.fst, ∃ n : Nat, x = q ++ ":" ++ toString n := by
        intro x hx
        obtain ⟨q, hq, n, hn⟩ := assignedIdsAux_shape _ _ _ x hx
        exact ⟨q, mem_flatMap_replicate rest q hq, n, hn⟩
      have hne_p : ∀ x ∈ assignedIdsAux (some p) (0 + k')
          (rest.flatMap (fun r => List.replicate r.2 r.1)),
          ∀ n : Nat, p ++ ":" ++ toString n ≠ x := by
        intro x hx n he
        obtain ⟨q, hq, nq, hnq⟩ := hrest0 x hx
        rw [hnq] at he
        obtain ⟨hpq, _⟩ := id_encoding_injective p q n nq he
        exact hpnotin (hpq ▸ hq)
      have htail : (assignedIdsAux (some p) (0 + k')
          (rest.flatMap (fun r => List.replicate r.2 r.1))).Nodup := by
        refine ih (some p) (0 + k') h1' ?_
        intro r hr he
        have : r.1 ∈ rest.map Prod.fst := List.mem_map_of_mem Prod.fst hr
        rw [← Option.some.inj he] at this
        exact hpnotin this
      have hrun : ((List.range k').map (fun i => p ++ ":" ++ toString (0 + 1 + i))).Nodup := by
        refine List.Nodup.map ?_ (List.nodup_range k')
        intro i j he
        obtain ⟨_, hn⟩ := id_encoding_injective p p (0 + 1 + i) (0 + 1 + j) he
        omega
      rw [List.nodup_cons, List.nodup_append]
      refine ⟨?_, hrun, htail, ?_⟩
      · intro hmem
        rcases List.mem_append.mp hmem with hm | hm
        · obtain ⟨i, _, hi⟩ := List.mem_map.mp hm
          obtain ⟨_, hn⟩ := id_encoding_injective p p 0 (0 + 1 + i) hi.symm
          omega
        · exact hne_p _ hm 0 rfl
      · intro x hx hy
        obtain ⟨i, _, hi⟩ := List.mem_map.mp hx
        exact hne_p x hy (0 + 1 + i) hi

theorem splitDocsModel_pageIds (pieces : Document → List String) (docs : List Document) :
    (splitDocsModel pieces docs).map pageId
      = (docs.map (fun d => (pageId d, (pieces d).length))).flatMap
          (fun r => List.replicate r.2 r.1) := by
  induction docs with
  | nil => rfl
  | cons d t ih =>
    simp only [splitDocsModel, List.flatMap_cons, List.map_append, List.map_cons] at ih ⊢
    rw [ih, List.map_map]
    congr 1
    have hconst : (pageId ∘ fun t' => (⟨t', d.metadata⟩ : Document)) = fun _ => pageId d := by
      funext t'
      rfl
    rw [hconst]
    exact List.map_const' (pieces d) (pageId d)

/-- C2: identifier uniqueness.  For every chunk sequence produced by the
splitter from documents whose source:page identifiers are pairwise
distinct — the stable traversal order the loader guarantees, each
source:page pair arriving as one document whose chunks stay consecutive —
the identifiers assigned by calculate_chunk_ids are pairwise distinct. -/
theorem chunk_ids_unique (pieces : Document → List String) (docs : List Document)
    (chunk_size chunk_overlap : Int) (cs : List Document)
    (hsplit : split_documents pieces docs chunk_size chunk_overlap = Except.ok cs)
    (hnd : (docs.map pageId).Nodup) :
    ((calculate_chunk_ids cs []).map idOf).Nodup := by
  have hcs : cs = splitDocsModel pieces docs := by
    by_cases h : chunk_size ≤ chunk_overlap
    · simp [split_documents, h] at hsplit
    · simp only [split_documents, if_neg h] at hsplit
      exact (Except.ok.inj hsplit).symm
  subst hcs
  rw [map_idOf_calculate_chunk_ids]
  unfold assignedIds
  rw [splitDocsModel_pageIds]
  apply assignedIdsAux_runs_nodup
  · rw [List.map_map]
    simpa using hnd
  · intro r hr
    simp

/-! ### Claim C3: chunk index reset -/

theorem assignedIndicesAux_cons (last : Option String) (idx : Nat) (p : String)
    (ps : List String) :
    assignedIndicesAux last idx (p :: ps) =
      (if some p = last then idx + 1 else 0) ::
        assignedIndicesAux (some p) (if some p = last then idx + 1 else 0) ps := rfl

theorem assignedIndicesAux_step :
    ∀ (ps : List String) (last : Option String) (idx i : Nat), i + 1 < ps.length →
      (assignedIndicesAux last idx ps).getD (i + 1) 0 =
        if ps.getD (i + 1) "" = ps.getD i "" then (assignedIndicesAux last idx ps).getD i 0 + 1
        else 0 := by
  intro ps
  induction ps with
  | nil =>
    intro last idx i h
    simp at h
  | cons p t ih =>
    intro last idx i h
    cases t with
    | nil => simp at h
    | cons q u =>
      cases i with
      | zero =>
        rw [assignedIndicesAux_cons, assignedIndicesAux_cons]
        simp only [List.getD_cons_succ, List.getD_cons_zero, Option.some.injEq]
      | succ j =>
        have h' : j + 1 < (q :: u).length := by simpa using h
        rw [assignedIndicesAux_cons]
        simp only [List.getD_cons_succ]
        exact ih (some p) _ j h'

/-- The default document used for positional access in statements. -/
def dfltDoc : Document := ⟨"", []⟩

theorem getD_map_pageId (cs : List Document) (i : Nat) (h : i < cs.length) :
    (cs.map pageId).getD i "" = pageId (cs.getD i dfltDoc) := by
  rw [List.getD_eq_getElem _ _ (by simpa using h), List.getD_eq_getElem _ _ h]
  simp

theorem assignedIndices_head (cs : List Document) (h : cs ≠ []) :
    (assignedIndices cs).getD 0 0 = 0 := by
  cases cs with
  | nil => exact absurd rfl h
  | cons c t =>
    show (assignedIndicesAux none 0 (pageId c :: t.map pageId)).getD 0 0 = 0
    rw [assignedIndicesAux_cons]
    simp

/-- The chunk sequence of spec section 8 with source A and pages
1, 1, 2, 1. -/
def exChunkA1 : Document := ⟨"c1", [("source", Val.vStr "A"), ("page", Val.vInt 1)]⟩

/-- A chunk of source A, page 2. -/
def exChunkA2 : Document := ⟨"c2", [("source", Val.vStr "A"), ("page", Val.vInt 2)]⟩

/-- The example traversal of spec section 8. -/
def exampleChunks : List Document := [exChunkA1, exChunkA1, exChunkA2, exChunkA1]

/-- C3: chunk-index reset.  The identifiers calculate_chunk_ids assigns
are pageId : index where the index list starts at zero, increments exactly
when the source:page pair repeats the immediately preceding one and resets
to zero otherwise; on the spec example (A,1),(A,1),(A,2),(A,1) the
identifiers are A:1:0, A:1:1, A:2:0, A:1:0. -/
theorem chunk_index_reset (cs : List Document) (i : Nat) :
    ((calculate_chunk_ids cs []).map idOf
        = List.zipWith (fun p n => p ++ ":" ++ toString n) (cs.map pageId) (assignedIndices cs))
    ∧ (cs ≠ [] → (assignedIndices cs).getD 0 0 = 0)
    ∧ (i + 1 < cs.length →
        (assignedIndices cs).getD (i + 1) 0 =
          if pageId (cs.getD (i + 1) dfltDoc) = pageId (cs.getD i dfltDoc)
          then (assignedIndices cs).getD i 0 + 1 else 0)
    ∧ (calculate_chunk_ids exampleChunks []).map idOf = ["A:1:0", "A:1:1", "A:2:0", "A:1:0"] := by
  refine ⟨?_, assignedIndices_head cs, ?_, by decide⟩
  · rw [map_idOf_calculate_chunk_ids, assignedIds_eq_zipWith]
  · intro h
    have hstep := assignedIndicesAux_step (cs.map pageId) none 0 i (by simpa using h)
    rw [getD_map_pageId cs (i + 1) h, getD_map_pageId cs i (by omega)] at hstep
    exact hstep

theorem chunk_index_reset_witness :
    (assignedIndices exampleChunks).getD 0 0 = 0
    ∧ (assignedIndices exampleChunks).getD 3 0 =
        (if pageId (exampleChunks.getD 3 dfltDoc) = pageId (exampleChunks.getD 2 dfltDoc)
         then (assignedIndices exampleChunks).getD 2 0 + 1 else 0) :=
  ⟨(chunk_index_reset exampleChunks 2).2.1 (by decide),
   (chunk_index_reset exampleChunks 2).2.2.1 (by decide)⟩

/-! ### Remaining witnesses -/

theorem chunk_ids_unique_witness :
    ((calculate_chunk_ids (splitDocsModel (fun _ => ["x", "y"]) [exChunkA1, exChunkA2]) []).map
      idOf).Nodup :=
  chunk_ids_unique (fun _ => ["x", "y"]) [exChunkA1, exChunkA2] 400 40
    (splitDocsModel (fun _ => ["x", "y"]) [exChunkA1, exChunkA2])
    (by simp only [split_documents]; rw [if_neg (by decide)]) (by decide)

theorem calculate_chunk_ids_deterministic_witness :
    calculate_chunk_ids exampleChunks [] = calculate_chunk_ids exampleChunks []
    ∧ (add_documents ⟨[]⟩ exampleChunks []).chunksWithIds
        = (add_documents ⟨[("A:9:9", exChunkA1)]⟩ exampleChunks []).chunksWithIds :=
  calculate_chunk_ids_deterministic ⟨[]⟩ ⟨[("A:9:9", exChunkA1)]⟩
    exampleChunks exampleChunks [] [] rfl rfl

theorem length_calcIdsAux (overlay : List (List (String × Val))) :
    ∀ (cs : List Document) (last : Option String) (idx : Nat),
      (calcIdsAux overlay last idx cs).length = cs.length := by
  intro cs
  induction cs with
  | nil => intro last idx; rfl
  | cons c t ih =>
    intro last idx
    simp only [calcIdsAux, List.length_cons, ih]

theorem newChunksOf_empty_store (cs : List Document) (m : List (List (String × Val))) :
    newChunksOf ⟨[]⟩ cs m = calculate_chunk_ids cs m := by
  unfold newChunksOf
  rw [List.filter_eq_self.mpr]
  intro c hc
  rfl

theorem add_documents_batch_boundary_witness :
    ((add_documents ⟨[]⟩ (List.replicate 250 exChunkA1) []).writes).map List.length
      = [100, 100, 50] := by
  have hlen : (newChunksOf ⟨[]⟩ (List.replicate 250 exChunkA1) []).length = 250 := by
    rw [newChunksOf_empty_store]
    show (calcIdsAux [] none 0 _).length = 250
    rw [length_calcIdsAux, List.length_replicate]
  have hne : newChunksOf ⟨[]⟩ (List.replicate 250 exChunkA1) [] ≠ [] := by
    intro he
    rw [he] at hlen
    simp at hlen
  exact (add_documents_batch_boundary ⟨[]⟩ (List.replicate 250 exChunkA1) [] hne).2.2.2 hlen

theorem add_documents_frame_witness :
    ("A:9:9" ∈ storedIds (add_documents ⟨[("A:9:9", exChunkA1)]⟩ exampleChunks []).store)
    ∧ storeGet (add_documents ⟨[("A:9:9", exChunkA1)]⟩ exampleChunks []).store "A:9:9"
        = storeGet ⟨[("A:9:9", exChunkA1)]⟩ "A:9:9"
    ∧ ¬ idOf (((add_documents ⟨[("A:9:9", exChunkA1)]⟩ exampleChunks []).writes.getD 0 []).getD 0
          dfltDoc) ∈ storedIds ⟨[("A:9:9", exChunkA1)]⟩ :=
  ⟨(add_documents_frame ⟨[("A:9:9", exChunkA1)]⟩ exampleChunks []).2.1 "A:9:9" (by decide),
   (add_documents_frame ⟨[("A:9:9", exChunkA1)]⟩ exampleChunks []).2.2 "A:9:9" (by decide),
   (add_documents_frame ⟨[("A:9:9", exChunkA1)]⟩ exampleChunks []).1
     ((add_documents ⟨[("A:9:9", exChunkA1)]⟩ exampleChunks []).writes.getD 0 []) (by decide)
     (((add_documents ⟨[("A:9:9", exChunkA1)]⟩ exampleChunks []).writes.getD 0 []).getD 0 dfltDoc)
     (by decide)⟩

/-- A pre-existing store entry that does satisfy the editor filter. -/
def exEditorDoc : Document := ⟨"e", [("user:editor", Val.vBool true)]⟩

theorem editor_tier_unreachable_witness :
    exEditorDoc ∈ (⟨[("x", exEditorDoc)]⟩ : Store).entries.map Prod.snd :=
  (editor_tier_unreachable ⟨[("x", exEditorDoc)]⟩ [exChunkA1] "q" 2 exEditorDoc (by decide)).2

end LlmPlayground
